import Mathlib

/-!
Shallow embedding of the finzo point-of-sale core (product catalog with
price history, sale commits, pending-sale drafts, report aggregation).

Conventions of the embedding:
* JS numbers carrying money are modelled as `ℚ`; quantities and stock as
  `ℤ` (stock may go negative in the source, so `ℕ` would be unfaithful);
  instants (`Date` values / ISO strings) as `ℤ` milliseconds since epoch.
* `Array.prototype.find` is modelled by first-match recursion / `List.find?`;
  in-place mutation of the found object becomes rebuilding the list with
  the first matching element replaced.
* `Date.now() + Math.random()` sale-id generation is modelled by an
  abstract id supply `mkId : ℕ → ℤ` applied at the item's index.
* `x || 0` on a JS number that is present is the identity on `ℚ`/`ℤ`
  (both branches agree when `x = 0`); on an optional field it is
  `Option.getD 0`.  `s || fallback` on a string is an emptiness test.
-/

namespace Finzo

/-- Entry of `Product.priceHistory` (source: inline `{price, date}` records;
`price` is the superseded price, `date` the instant of the change). -/
structure PriceChange where
  price : ℚ
  date : ℤ
  deriving Repr, DecidableEq

/-- Source: the `Product` interface (dataService / components). -/
structure Product where
  id : ℤ
  name : String
  price : ℚ
  stock : ℤ
  priceHistory : List PriceChange
  deriving Repr, DecidableEq

/-- Source: the `SaleItem` interface of `SalesManagement.tsx`
(ephemeral line item of a cart or draft). -/
structure SaleItem where
  productId : ℤ
  quantity : ℤ
  price : ℚ
  total : ℚ
  deriving Repr, DecidableEq

/-- Source: the `Sale` interface of `dataService` (committed record;
`title`, `unitPrice` optional there). -/
structure Sale where
  id : ℤ
  productId : ℤ
  productName : String
  quantity : ℤ
  unitPrice : Option ℚ
  total : ℚ
  date : ℤ
  title : Option String
  deriving Repr, DecidableEq

/-- Source: the `PendingSale` interface of the pending-draft
`SalesManagement` component. -/
structure PendingSale where
  id : String
  title : String
  items : List SaleItem
  total : ℚ
  createdAt : ℤ
  lastUpdated : ℤ
  deriving Repr, DecidableEq

/-- `products.find(p => p.id === productId)`. -/
def findProduct (products : List Product) (productId : ℤ) : Option Product :=
  products.find? (fun p => p.id == productId)

/-- Source: `DataService.updateProductPrice`.  Finds the first product with
the given id; if present, sets `price := newPrice` and pushes the OLD price
with the current timestamp onto `priceHistory` (no comparison between old
and new price is made).  Unknown ids are silent no-ops.  The source's
`if (!product.priceHistory) product.priceHistory = []` guard only repairs
an `undefined` field, which the typed model excludes. -/
def updateProductPrice (products : List Product) (productId : ℤ)
    (newPrice : ℚ) (now : ℤ) : List Product :=
  match products with
  | [] => []
  | p :: ps =>
    if p.id == productId then
      { p with price := newPrice,
               priceHistory := p.priceHistory ++ [⟨p.price, now⟩] } :: ps
    else
      p :: updateProductPrice ps productId newPrice now

/-- Source: `DataService.updateProductStock`.  Finds the first product with
the given id; if present, sets `stock := newStock` directly — there is no
`newStock < 0` validation and no error for an unknown id (silent no-op). -/
def updateProductStock (products : List Product) (productId : ℤ)
    (newStock : ℤ) : List Product :=
  match products with
  | [] => []
  | p :: ps =>
    if p.id == productId then { p with stock := newStock } :: ps
    else p :: updateProductStock ps productId newStock

/-- One call of `updateProductPrice`: target id, new price, timestamp. -/
structure PriceCall where
  productId : ℤ
  newPrice : ℚ
  now : ℤ
  deriving Repr, DecidableEq

/-- A sequence of `updateProductPrice` calls, applied in order. -/
def applyPriceCalls (products : List Product) (calls : List PriceCall) :
    List Product :=
  calls.foldl (fun ps c => updateProductPrice ps c.productId c.newPrice c.now)
    products

/-- The rewrite `updateProductPrice` applies to the matched product:
price becomes the new price, the superseded price is pushed onto the
history with the call's timestamp. -/
def applyPriceChange (np : ℚ) (now : ℤ) (p : Product) : Product :=
  { p with price := np, priceHistory := p.priceHistory ++ [⟨p.price, now⟩] }

@[simp] lemma applyPriceChange_id (np : ℚ) (now : ℤ) (p : Product) :
    (applyPriceChange np now p).id = p.id := rfl

lemma updateProductPrice_eq (products : List Product) (pid : ℤ)
    (np : ℚ) (now : ℤ) :
    updateProductPrice products pid np now
      = match products with
        | [] => []
        | p :: ps =>
          if p.id == pid then applyPriceChange np now p :: ps
          else p :: updateProductPrice ps pid np now := by
  cases products <;> rfl

/-- `updateProductPrice` rewrites the first product carrying the target id:
its price becomes the new price and the superseded price is appended to its
history. -/
lemma findProduct_updatePrice_self (products : List Product) (pid : ℤ)
    (np : ℚ) (now : ℤ) :
    findProduct (updateProductPrice products pid np now) pid
      = (findProduct products pid).map (applyPriceChange np now) := by
  induction products with
  | nil => rfl
  | cons p ps ih =>
    rw [updateProductPrice_eq]
    by_cases h : p.id = pid
    · simp [findProduct, h, applyPriceChange]
    · have hb : (p.id == pid) = false := by simpa using h
      simp only [hb, Bool.false_eq_true, if_false, findProduct, List.find?, hb]
      exact ih

/-- `updateProductPrice` leaves lookups of every other id untouched. -/
lemma findProduct_updatePrice_other (products : List Product) (pid qid : ℤ)
    (np : ℚ) (now : ℤ) (hq : qid ≠ pid) :
    findProduct (updateProductPrice products pid np now) qid
      = findProduct products qid := by
  induction products with
  | nil => rfl
  | cons p ps ih =>
    rw [updateProductPrice_eq]
    by_cases h : p.id = pid
    · have hb : (p.id == qid) = false := by
        refine beq_eq_false_iff_ne.mpr ?_
        intro hc
        exact hq (hc ▸ h)
      have hbt : (p.id == pid) = true := by simpa using h
      simp only [hbt, if_true, findProduct, List.find?, applyPriceChange_id, hb]
    · have hb : (p.id == pid) = false := by simpa using h
      simp only [hb, Bool.false_eq_true, if_false, findProduct, List.find?]
      cases hcase : (p.id == qid) with
      | true => rfl
      | false => exact ih

/-- Claim C5 (amended): for every product and every sequence of
`updateProductPrice` calls, the final `priceHistory` length equals the
initial length plus the TOTAL number of calls addressed to that product's
id — every matching call appends exactly one entry recording the
superseded price, even when the new price equals the then-current price;
calls addressed to other ids leave the product untouched. -/
theorem priceHistory_length_eq_total_matching_calls
    (calls : List PriceCall) (products : List Product) (pid : ℤ)
    (p : Product) (hfind : findProduct products pid = some p) :
    (findProduct (applyPriceCalls products calls) pid).map
        (fun q => q.priceHistory.length)
      = some (p.priceHistory.length
          + (calls.filter (fun c => c.productId == pid)).length) := by
  induction calls generalizing products p with
  | nil => simp [applyPriceCalls, hfind]
  | cons c cs ih =>
    have hstep : applyPriceCalls products (c :: cs)
        = applyPriceCalls
            (updateProductPrice products c.productId c.newPrice c.now) cs := by
      simp [applyPriceCalls]
    by_cases h : c.productId = pid
    · have hfind2 : findProduct
          (updateProductPrice products c.productId c.newPrice c.now) pid
          = some (applyPriceChange c.newPrice c.now p) := by
        rw [h, findProduct_updatePrice_self, hfind]
        rfl
      rw [hstep, ih _ _ hfind2]
      have hb : (c.productId == pid) = true := by simpa using h
      simp [hb, applyPriceChange, Nat.add_assoc, Nat.add_comm 1]
    · have hfind2 : findProduct
          (updateProductPrice products c.productId c.newPrice c.now) pid
          = some p := by
        rw [findProduct_updatePrice_other products c.productId pid _ _
          (fun hc => h hc.symm), hfind]
      rw [hstep, ih _ _ hfind2]
      have hb : (c.productId == pid) = false := by simpa using h
      simp [hb]

/-- Claim C5, counterexample: a product priced 10 receives a single
`updateProductPrice` call with the SAME price 10.  The number of calls
where the new price differed from the then-current price is 0, yet the
resulting `priceHistory` has length 1 (the source pushes unconditionally),
refuting the claim at this input. -/
theorem priceHistory_counts_equal_price_calls_too :
    ¬ ((findProduct
          (applyPriceCalls [⟨1, "Cafe", 10, 5, []⟩] [⟨1, 10, 1000⟩]) 1).map
        (fun q => q.priceHistory.length) = some 0) := by
  decide

/-- Witness for the amended claim C5 at a concrete run: two calls target
product 1 (one of them with an unchanged price), one call targets the
absent id 2; the history of product 1 ends with exactly 2 entries. -/
theorem priceHistory_length_witness :
    (findProduct
        (applyPriceCalls [⟨1, "Cafe", 10, 5, []⟩]
          [⟨1, 10, 1000⟩, ⟨1, 12, 2000⟩, ⟨2, 9, 3000⟩]) 1).map
      (fun q => q.priceHistory.length) = some 2 := by
  have h := priceHistory_length_eq_total_matching_calls
    [⟨1, 10, 1000⟩, ⟨1, 12, 2000⟩, ⟨2, 9, 3000⟩]
    [⟨1, "Cafe", 10, 5, []⟩] 1 ⟨1, "Cafe", 10, 5, []⟩ (by decide)
  simpa using h

/-- The rewrite `updateProductStock` applies to the matched product. -/
def setStock (ns : ℤ) (p : Product) : Product :=
  { p with stock := ns }

@[simp] lemma setStock_id (ns : ℤ) (p : Product) :
    (setStock ns p).id = p.id := rfl

lemma updateProductStock_eq (products : List Product) (pid ns : ℤ) :
    updateProductStock products pid ns
      = match products with
        | [] => []
        | p :: ps =>
          if p.id == pid then setStock ns p :: ps
          else p :: updateProductStock ps pid ns := by
  cases products <;> rfl

/-- Claim C9 (amended): `updateProductStock` performs an unvalidated
absolute set — the first product carrying the id gets `stock := newStock`
(negative values included), every other lookup is unchanged, and an
unknown id leaves the whole list untouched (silent no-op, no error). -/
theorem updateProductStock_absolute_set (products : List Product)
    (pid ns : ℤ) :
    (findProduct (updateProductStock products pid ns) pid
        = (findProduct products pid).map (setStock ns))
    ∧ (∀ qid, qid ≠ pid →
        findProduct (updateProductStock products pid ns) qid
          = findProduct products qid)
    ∧ (findProduct products pid = none →
        updateProductStock products pid ns = products) := by
  refine ⟨?_, ?_, ?_⟩
  · induction products with
    | nil => rfl
    | cons p ps ih =>
      rw [updateProductStock_eq]
      by_cases h : p.id = pid
      · simp [findProduct, h, setStock]
      · have hb : (p.id == pid) = false := by simpa using h
        simp only [hb, Bool.false_eq_true, if_false, findProduct, List.find?,
          hb]
        exact ih
  · intro qid hq
    induction products with
    | nil => rfl
    | cons p ps ih =>
      rw [updateProductStock_eq]
      by_cases h : p.id = pid
      · have hb : (p.id == qid) = false := by
          refine beq_eq_false_iff_ne.mpr ?_
          intro hc
          exact hq (hc ▸ h)
        have hbt : (p.id == pid) = true := by simpa using h
        simp only [hbt, if_true, findProduct, List.find?, setStock_id, hb]
      · have hb : (p.id == pid) = false := by simpa using h
        simp only [hb, Bool.false_eq_true, if_false, findProduct, List.find?]
        cases hcase : (p.id == qid) with
        | true => rfl
        | false => exact ih
  · intro hnone
    induction products with
    | nil => rfl
    | cons p ps ih =>
      have hb : (p.id == pid) = false := by
        by_contra hc
        have hpe : p.id = pid := by simpa using hc
        simp [findProduct, List.find?, hpe] at hnone
      rw [updateProductStock_eq]
      simp only [hb, Bool.false_eq_true, if_false]
      simp only [findProduct, List.find?, hb] at hnone
      rw [ih hnone]

/-- Claim C9, counterexample: a call with `newStock = -5 < 0` does NOT fail
with InvalidArgument — it sets the stock to `-5`; and a call with an
unknown id does NOT fail with NotFound — it returns the list unchanged. -/
theorem updateProductStock_no_validation :
    updateProductStock [⟨1, "Cafe", 10, 3, []⟩] 1 (-5)
        = [⟨1, "Cafe", 10, -5, []⟩]
    ∧ updateProductStock [⟨1, "Cafe", 10, 3, []⟩] 99 7
        = [⟨1, "Cafe", 10, 3, []⟩] := by
  decide

/-- Witness for the amended claim C9 at concrete inputs: an absolute set
on the present id 1 and a silent no-op on the absent id 99. -/
theorem updateProductStock_witness :
    findProduct (updateProductStock [⟨1, "Cafe", 10, 3, []⟩] 1 7) 1
        = some ⟨1, "Cafe", 10, 7, []⟩
    ∧ updateProductStock [⟨1, "Cafe", 10, 3, []⟩] 99 7
        = [⟨1, "Cafe", 10, 3, []⟩] := by
  constructor
  · have h := (updateProductStock_absolute_set [⟨1, "Cafe", 10, 3, []⟩] 1 7).1
    exact h.trans (by decide)
  · exact (updateProductStock_absolute_set [⟨1, "Cafe", 10, 3, []⟩] 99 7).2.2
      (by decide)

/-- Comparator of the JS `sort((a, b) => new Date(b.date).getTime() -
new Date(a.date).getTime())` on the history copy: descending by
timestamp. -/
def dateDesc (a b : PriceChange) : Prop := b.date ≤ a.date

instance : DecidableRel dateDesc := fun a b => by
  unfold dateDesc
  infer_instance

instance : IsTotal PriceChange dateDesc :=
  ⟨fun a b => le_total b.date a.date⟩

instance : IsTrans PriceChange dateDesc :=
  ⟨fun _ _ _ hab hbc => le_trans hbc hab⟩

/-- The stable JS sort of `[...priceHistory]`, descending by timestamp
(modelled by a stable sort with the same comparator). -/
def sortPriceHistoryDesc (history : List PriceChange) : List PriceChange :=
  List.insertionSort dateDesc history

lemma sortPriceHistoryDesc_sorted (history : List PriceChange) :
    List.Sorted dateDesc (sortPriceHistoryDesc history) :=
  List.sorted_insertionSort dateDesc history

lemma mem_sortPriceHistoryDesc {e : PriceChange} {history : List PriceChange} :
    e ∈ sortPriceHistoryDesc history ↔ e ∈ history :=
  List.mem_insertionSort dateDesc

/-- Source: `getHistoricalPrice` (historical-price reports component).
Empty history → the current price; otherwise the first entry of the
descending-sorted history with `date ≤ saleDate`; if the query predates
every entry, the last element of the descending sort (the source indexes
`sortedHistory[sortedHistory.length - 1]`, which on the nonempty sorted
list equals `getLastD` with a dummy default). -/
def getHistoricalPrice (product : Product) (saleDate : ℤ) : ℚ :=
  if product.priceHistory.length = 0 then product.price
  else
    let sortedHistory := sortPriceHistoryDesc product.priceHistory
    match sortedHistory.find? (fun h => decide (h.date ≤ saleDate)) with
    | some h => h.price
    | none => (sortedHistory.getLastD ⟨0, 0⟩).price

/-- On a descending-sorted list, `find?` with predicate `date ≤ t` returns
an entry whose timestamp is maximal among the entries with `date ≤ t`. -/
lemma find_in_sorted_desc (t : ℤ) :
    ∀ (l : List PriceChange), List.Sorted dateDesc l →
      ∀ e, l.find? (fun h => decide (h.date ≤ t)) = some e →
        e ∈ l ∧ e.date ≤ t ∧ ∀ x ∈ l, x.date ≤ t → x.date ≤ e.date := by
  intro l
  induction l with
  | nil => intro _ e he; simp at he
  | cons a l ih =>
    intro hs e he
    by_cases ha : a.date ≤ t
    · rw [List.find?_cons_of_pos _ (by simpa using ha)] at he
      have hea : e = a := by simpa using he.symm
      subst hea
      refine ⟨List.mem_cons_self _ _, ha, ?_⟩
      intro x hx _
      rcases List.mem_cons.mp hx with hx | hx
      · exact le_of_eq (by rw [hx])
      · exact List.rel_of_sorted_cons hs x hx
    · rw [List.find?_cons_of_neg _ (by simpa using ha)] at he
      obtain ⟨hmem, hle, hmax⟩ := ih hs.of_cons e he
      refine ⟨List.mem_cons_of_mem _ hmem, hle, ?_⟩
      intro x hx hxt
      rcases List.mem_cons.mp hx with hx | hx
      · exact absurd (hx ▸ hxt) ha
      · exact hmax x hx hxt

/-- On a nonempty descending-sorted list, the last element has the minimal
timestamp. -/
lemma getLast?_min_of_sorted_desc :
    ∀ (l : List PriceChange), List.Sorted dateDesc l → l ≠ [] →
      ∃ e, l.getLast? = some e ∧ e ∈ l ∧ ∀ x ∈ l, e.date ≤ x.date := by
  intro l
  induction l with
  | nil => intro _ h; exact absurd rfl h
  | cons a l ih =>
    intro hs _
    cases l with
    | nil =>
      refine ⟨a, List.getLast?_singleton a, List.mem_singleton_self a, ?_⟩
      intro x hx
      rcases List.mem_cons.mp hx with hx | hx
      · exact le_of_eq (by rw [hx])
      · simp at hx
    | cons b l2 =>
      obtain ⟨e, hlast, hmem, hmin⟩ := ih hs.of_cons (by simp)
      refine ⟨e, by rw [List.getLast?_cons_cons, hlast],
        List.mem_cons_of_mem _ hmem, ?_⟩
      intro x hx
      rcases List.mem_cons.mp hx with hx | hx
      · exact hx ▸ List.rel_of_sorted_cons hs _ hmem
      · exact hmin x hx

/-- Claim C6: `getHistoricalPrice product t` returns the current price on
an empty history; otherwise the price of an entry maximal among those with
timestamp ≤ t (the first qualifying entry of the descending sort); and if
the query predates the whole history, the price of an entry with the
minimal (oldest) timestamp. -/
theorem getHistoricalPrice_spec (product : Product) (t : ℤ) :
    (product.priceHistory = [] → getHistoricalPrice product t = product.price)
    ∧ ((∃ e ∈ product.priceHistory, e.date ≤ t) →
        ∃ e ∈ product.priceHistory, getHistoricalPrice product t = e.price
          ∧ e.date ≤ t
          ∧ ∀ x ∈ product.priceHistory, x.date ≤ t → x.date ≤ e.date)
    ∧ (product.priceHistory ≠ [] →
        (∀ e ∈ product.priceHistory, t < e.date) →
        ∃ e ∈ product.priceHistory, getHistoricalPrice product t = e.price
          ∧ ∀ x ∈ product.priceHistory, e.date ≤ x.date) := by
  refine ⟨?_, ?_, ?_⟩
  · intro hemp
    rw [getHistoricalPrice, if_pos (by rw [hemp]; rfl)]
  · rintro ⟨e0, he0, he0t⟩
    have hne : product.priceHistory.length ≠ 0 := by
      intro hc
      rw [List.length_eq_zero.mp hc] at he0
      simp at he0
    rcases hfind : (sortPriceHistoryDesc product.priceHistory).find?
        (fun h => decide (h.date ≤ t)) with _ | e
    · exfalso
      have hall := List.find?_eq_none.mp hfind e0
        (mem_sortPriceHistoryDesc.mpr he0)
      exact hall (by simpa using he0t)
    · have hprice : getHistoricalPrice product t = e.price := by
        rw [getHistoricalPrice, if_neg hne]
        simp only [hfind]
      obtain ⟨hmem, hle, hmax⟩ := find_in_sorted_desc t _
        (sortPriceHistoryDesc_sorted product.priceHistory) e hfind
      refine ⟨e, mem_sortPriceHistoryDesc.mp hmem, hprice, hle, ?_⟩
      intro x hx hxt
      exact hmax x (mem_sortPriceHistoryDesc.mpr hx) hxt
  · intro hne hall
    have hlen : product.priceHistory.length ≠ 0 := by
      intro hc
      exact hne (List.length_eq_zero.mp hc)
    have hsne : sortPriceHistoryDesc product.priceHistory ≠ [] := by
      intro hc
      rcases List.exists_mem_of_ne_nil _ hne with ⟨x, hx⟩
      have hmm := mem_sortPriceHistoryDesc.mpr hx
      rw [hc] at hmm
      simp at hmm
    have hfind : (sortPriceHistoryDesc product.priceHistory).find?
        (fun h => decide (h.date ≤ t)) = none := by
      refine List.find?_eq_none.mpr ?_
      intro x hx
      have hxh := mem_sortPriceHistoryDesc.mp hx
      simpa using not_le.mpr (hall x hxh)
    obtain ⟨e, hlast, hmem, hmin⟩ := getLast?_min_of_sorted_desc _
      (sortPriceHistoryDesc_sorted product.priceHistory) hsne
    have hprice : getHistoricalPrice product t = e.price := by
      rw [getHistoricalPrice, if_neg hlen]
      simp only [hfind, List.getLastD_eq_getLast?, hlast, Option.getD_some]
    refine ⟨e, mem_sortPriceHistoryDesc.mp hmem, hprice, ?_⟩
    intro x hx
    exact hmin x (mem_sortPriceHistoryDesc.mpr hx)

/-- Witness for claim C6 at a concrete product: history records superseded
prices 10 (at 100) and 15 (at 200); a query at 150 returns 10 (the entry
at 100 is the latest one not after 150), a query at 50 (predating the
whole history) returns the oldest entry's price 10, and an empty history
returns the current price. -/
theorem getHistoricalPrice_witness :
    getHistoricalPrice ⟨1, "Cafe", 20, 5, [⟨10, 100⟩, ⟨15, 200⟩]⟩ 150 = 10
    ∧ (∃ e ∈ [(⟨10, 100⟩ : PriceChange), ⟨15, 200⟩],
        getHistoricalPrice ⟨1, "Cafe", 20, 5, [⟨10, 100⟩, ⟨15, 200⟩]⟩ 150
            = e.price
          ∧ e.date ≤ 150
          ∧ ∀ x ∈ [(⟨10, 100⟩ : PriceChange), ⟨15, 200⟩],
              x.date ≤ 150 → x.date ≤ e.date)
    ∧ getHistoricalPrice ⟨1, "Cafe", 20, 5, [⟨10, 100⟩, ⟨15, 200⟩]⟩ 50 = 10
    ∧ getHistoricalPrice ⟨1, "Cafe", 20, 5, []⟩ 150 = 20 := by
  refine ⟨by decide, ?_, by decide, ?_⟩
  · exact (getHistoricalPrice_spec ⟨1, "Cafe", 20, 5, [⟨10, 100⟩, ⟨15, 200⟩]⟩
      150).2.1 ⟨⟨10, 100⟩, by decide, by decide⟩
  · exact (getHistoricalPrice_spec ⟨1, "Cafe", 20, 5, []⟩ 150).1 rfl

/-- `product?.name || 'Producto eliminado'`: the fallback text is used when
the product is unknown or its name is the empty string. -/
def nameOrDeleted (o : Option Product) : String :=
  match o with
  | some p => if p.name = "" then "Producto eliminado" else p.name
  | none => "Producto eliminado"

/-- One Sale record created at commit time from one line item (source: the
`newSales` mapping of `handleSaveTransaction` / `handleCompletePendingSale`
/ `handleCompleteAllPendingSales`): fresh id (`Date.now() + Math.random()`,
modelled by an abstract id supply applied at the item's index), the
product's current name with the deleted-product fallback, the item's
quantity, price snapshot and line total, and `date = now`. -/
def mkSaleRecord (products : List Product) (now : ℤ) (sid : ℤ)
    (item : SaleItem) : Sale :=
  { id := sid,
    productId := item.productId,
    productName := nameOrDeleted (findProduct products item.productId),
    quantity := item.quantity,
    unitPrice := some item.price,
    total := item.total,
    date := now,
    title := none }

/-- `items.map(...)` producing the new Sale records, with the id supply
threaded through by item index. -/
def commitNewSales (products : List Product) (now : ℤ) (mkId : ℕ → ℤ) :
    ℕ → List SaleItem → List Sale
  | _, [] => []
  | i, item :: rest =>
    mkSaleRecord products now (mkId i) item ::
      commitNewSales products now mkId (i + 1) rest

/-- Per-product stock rewrite of `handleSaveTransaction`:
`currentSaleItems.find(item => item.productId === product.id)` — only the
FIRST matching line item's quantity is subtracted. -/
def cartStockUpdate (items : List SaleItem) (p : Product) : Product :=
  match items.find? (fun it => it.productId == p.id) with
  | some it => { p with stock := p.stock - it.quantity }
  | none => p

/-- Per-product stock rewrite of `handleCompletePendingSale`:
`saleToComplete.items.filter(...)` — the quantities of ALL matching line
items are summed and subtracted. -/
def draftStockDecrement (items : List SaleItem) (p : Product) : Product :=
  let saleItems := items.filter (fun it => it.productId == p.id)
  if saleItems.isEmpty then p
  else { p with stock := p.stock - (saleItems.map SaleItem.quantity).sum }

/-- The in-memory state the sales component mutates: catalog, sales log,
pending drafts. -/
structure SalesState where
  products : List Product
  sales : List Sale
  pendingSales : List PendingSale
  deriving Repr, DecidableEq

/-- Source: `handleSaveTransaction` (SalesManagement).  Empty carts return
immediately; otherwise one Sale record per line item is appended and each
product's stock is decremented by its first matching line item's quantity.
There is NO stock check anywhere in this path. -/
def handleSaveTransaction (st : SalesState) (items : List SaleItem)
    (now : ℤ) (mkId : ℕ → ℤ) : SalesState :=
  if items.isEmpty then st
  else
    { st with
      products := st.products.map (cartStockUpdate items),
      sales := st.sales ++ commitNewSales st.products now mkId 0 items }

/-- Source: `handleCompletePendingSale`.  Unknown draft ids return
immediately; otherwise one Sale record per draft line item is appended,
each product's stock is decremented by the summed quantity of all matching
line items, and every pending sale carrying the id is removed.  There is
NO stock check. -/
def handleCompletePendingSale (st : SalesState) (saleId : String)
    (now : ℤ) (mkId : ℕ → ℤ) : SalesState :=
  match st.pendingSales.find? (fun s => s.id == saleId) with
  | none => st
  | some saleToComplete =>
    { products := st.products.map (draftStockDecrement saleToComplete.items),
      sales := st.sales
        ++ commitNewSales st.products now mkId 0 saleToComplete.items,
      pendingSales := st.pendingSales.filter (fun s => !(s.id == saleId)) }

/-- All line items of all pending drafts, in draft order (source: the
nested `pendingSales.forEach(... items.forEach ...)`). -/
def allDraftItems (drafts : List PendingSale) : List SaleItem :=
  (drafts.map PendingSale.items).flatten

/-- The `productQuantities` accumulator of `handleCompleteAllPendingSales`.
The source guards the running value with a JS truthiness test
(`if (productQuantities[item.productId]) ... += ... else ... = ...`); a
missing or zero running value is reset to `item.quantity`, which equals
`0 + item.quantity`, so the final accumulated value is exactly the sum of
the matching quantities. -/
def aggregateQuantity (drafts : List PendingSale) (pid : ℤ) : ℤ :=
  (((allDraftItems drafts).filter
      (fun it => it.productId == pid)).map SaleItem.quantity).sum

/-- Per-product stock rewrite of `handleCompleteAllPendingSales`: products
whose aggregated quantity is positive get it subtracted, the rest are
untouched (`if (quantity > 0)`). -/
def aggregateStockUpdate (drafts : List PendingSale) (p : Product) :
    Product :=
  let q := aggregateQuantity drafts p.id
  if 0 < q then { p with stock := p.stock - q } else p

/-- Source: `handleCompleteAllPendingSales`.  With no pending drafts it
returns immediately; otherwise it appends one Sale record per line item of
every draft, decrements each product's stock by the aggregated quantity
across ALL drafts, and clears the whole pending list.  There is NO stock
check and no failure path. -/
def handleCompleteAllPendingSales (st : SalesState) (now : ℤ)
    (mkId : ℕ → ℤ) : SalesState :=
  if st.pendingSales.isEmpty then st
  else
    { products := st.products.map (aggregateStockUpdate st.pendingSales),
      sales := st.sales
        ++ commitNewSales st.products now mkId 0
            (allDraftItems st.pendingSales),
      pendingSales := [] }

/-- First-matching-line-item quantity used by the cart commit's stock
update (0 when no line item references the product). -/
def firstMatchQty (items : List SaleItem) (pid : ℤ) : ℤ :=
  ((items.find? (fun it => it.productId == pid)).map SaleItem.quantity).getD 0

@[simp] lemma cartStockUpdate_id (items : List SaleItem) (p : Product) :
    (cartStockUpdate items p).id = p.id := by
  unfold cartStockUpdate
  cases items.find? (fun it => it.productId == p.id) <;> rfl

@[simp] lemma draftStockDecrement_id (items : List SaleItem) (p : Product) :
    (draftStockDecrement items p).id = p.id := by
  unfold draftStockDecrement
  by_cases h : (items.filter (fun it => it.productId == p.id)).isEmpty
  · simp [h]
  · simp [h]

@[simp] lemma aggregateStockUpdate_id (drafts : List PendingSale)
    (p : Product) : (aggregateStockUpdate drafts p).id = p.id := by
  unfold aggregateStockUpdate
  by_cases h : 0 < aggregateQuantity drafts p.id
  · simp [h]
  · simp [h]

/-- `find?` after `map` by an id-preserving function is `map` after
`find?`: the stock-update passes of the commit paths rewrite products in
place without disturbing id lookups. -/
lemma findProduct_map_pres (f : Product → Product)
    (hf : ∀ p, (f p).id = p.id) (products : List Product) (pid : ℤ) :
    findProduct (products.map f) pid = (findProduct products pid).map f := by
  induction products with
  | nil => rfl
  | cons p ps ih =>
    simp only [findProduct, List.map_cons]
    cases hc : (p.id == pid) with
    | true =>
      rw [@List.find?_cons_of_pos Product (fun q => q.id == pid) (f p)
          (List.map f ps) (by show ((f p).id == pid) = true
                              rw [hf p]; exact hc),
        @List.find?_cons_of_pos Product (fun q => q.id == pid) p ps hc]
      rfl
    | false =>
      rw [@List.find?_cons_of_neg Product (fun q => q.id == pid) (f p)
          (List.map f ps) (by show ¬ ((f p).id == pid) = true
                              rw [hf p]; simp [hc]),
        @List.find?_cons_of_neg Product (fun q => q.id == pid) p ps
          (by simp [hc])]
      exact ih

/-- One Sale record is created per line item. -/
lemma commitNewSales_length (products : List Product) (now : ℤ)
    (mkId : ℕ → ℤ) : ∀ (i : ℕ) (items : List SaleItem),
    (commitNewSales products now mkId i items).length = items.length := by
  intro i items
  induction items generalizing i with
  | nil => rfl
  | cons item rest ih => simp [commitNewSales, ih]

/-- The committed Sale records referencing a given product carry exactly
the quantities of the cart's line items referencing it, in order. -/
lemma commitNewSales_filter_quantities (products : List Product) (now : ℤ)
    (mkId : ℕ → ℤ) (pid : ℤ) : ∀ (i : ℕ) (items : List SaleItem),
    (((commitNewSales products now mkId i items).filter
        (fun s => s.productId == pid)).map Sale.quantity)
      = ((items.filter (fun it => it.productId == pid)).map
          SaleItem.quantity) := by
  intro i items
  induction items generalizing i with
  | nil => rfl
  | cons item rest ih =>
    rw [commitNewSales]
    cases hc : (item.productId == pid) with
    | true =>
      rw [List.filter_cons_of_pos (by simpa using hc),
        List.filter_cons_of_pos (by simpa using hc), List.map_cons,
        List.map_cons, ih]
      rfl
    | false =>
      rw [List.filter_cons_of_neg (by simpa using hc),
        List.filter_cons_of_neg (by simpa using hc), ih]

/-- `find?` returns the head of `filter`. -/
lemma find?_eq_head?_filter {α : Type} (p : α → Bool) :
    ∀ (l : List α), l.find? p = (l.filter p).head? := by
  intro l
  induction l with
  | nil => rfl
  | cons a l ih =>
    cases hc : p a with
    | true =>
      rw [List.find?_cons_of_pos _ hc, List.filter_cons_of_pos hc]
      rfl
    | false =>
      rw [List.find?_cons_of_neg _ (by simp [hc]),
        List.filter_cons_of_neg (by simp [hc]), ih]

/-- Claim C1 (amended): `handleSaveTransaction` never fails on stock — for
every state and every non-empty cart it appends exactly one Sale record
per line item to the sales log, rewrites every product lookup by the
first-matching-item stock decrement (no condition on stock levels is ever
consulted), and leaves the pending drafts untouched. -/
theorem handleSaveTransaction_commits_unconditionally (st : SalesState)
    (items : List SaleItem) (now : ℤ) (mkId : ℕ → ℤ)
    (hne : items ≠ []) :
    (handleSaveTransaction st items now mkId).sales
        = st.sales ++ commitNewSales st.products now mkId 0 items
    ∧ (handleSaveTransaction st items now mkId).sales.length
        = st.sales.length + items.length
    ∧ (∀ pid, findProduct (handleSaveTransaction st items now mkId).products
          pid = (findProduct st.products pid).map (cartStockUpdate items))
    ∧ (handleSaveTransaction st items now mkId).pendingSales
        = st.pendingSales := by
  have hguard : items.isEmpty = false := by
    cases items with
    | nil => exact absurd rfl hne
    | cons a l => rfl
  rw [handleSaveTransaction, hguard]
  refine ⟨rfl, ?_, ?_, rfl⟩
  · simp [List.length_append, commitNewSales_length]
  · intro pid
    exact findProduct_map_pres _ (cartStockUpdate_id items) st.products pid

/-- Claim C1, counterexample: a cart asking for 5 units of a product with
stock 3 — the claim says commit must fail with no Sale appended and no
stock change, but the code appends the Sale and drives the stock to -2. -/
theorem handleSaveTransaction_no_stock_check_cex :
    (handleSaveTransaction ⟨[⟨1, "Cafe", 10, 3, []⟩], [], []⟩
        [⟨1, 5, 10, 50⟩] 777 (fun i => (i : ℤ))).sales.length = 1
    ∧ (findProduct (handleSaveTransaction ⟨[⟨1, "Cafe", 10, 3, []⟩], [], []⟩
        [⟨1, 5, 10, 50⟩] 777 (fun i => (i : ℤ))).products 1).map
          Product.stock = some (-2)
    ∧ ¬ ((handleSaveTransaction ⟨[⟨1, "Cafe", 10, 3, []⟩], [], []⟩
        [⟨1, 5, 10, 50⟩] 777 (fun i => (i : ℤ))).products
          = [⟨1, "Cafe", 10, 3, []⟩]) := by
  refine ⟨rfl, rfl, by decide⟩

/-- Witness for the amended claim C1: committing the overdrawing cart of
the counterexample appends its single record and performs the
first-matching-item decrement with no stock condition. -/
theorem handleSaveTransaction_commits_witness :
    (handleSaveTransaction ⟨[⟨1, "Cafe", 10, 3, []⟩], [], []⟩
        [⟨1, 5, 10, 50⟩] 777 (fun i => (i : ℤ))).sales.length = 0 + 1
    ∧ findProduct (handleSaveTransaction ⟨[⟨1, "Cafe", 10, 3, []⟩], [], []⟩
        [⟨1, 5, 10, 50⟩] 777 (fun i => (i : ℤ))).products 1
      = (findProduct [⟨1, "Cafe", 10, 3, []⟩] 1).map
          (cartStockUpdate [⟨1, 5, 10, 50⟩]) := by
  have h := handleSaveTransaction_commits_unconditionally
    ⟨[⟨1, "Cafe", 10, 3, []⟩], [], []⟩ [⟨1, 5, 10, 50⟩] 777
    (fun i => (i : ℤ)) (by decide)
  exact ⟨h.2.1, h.2.2.1 1⟩

/-- The stock left on a product by the cart commit's per-product rewrite:
the prior stock minus the first matching line item's quantity (minus 0
when no line item references the product). -/
lemma cartStockUpdate_stock (items : List SaleItem) (p : Product) :
    (cartStockUpdate items p).stock = p.stock - firstMatchQty items p.id := by
  unfold cartStockUpdate firstMatchQty
  cases hfind : items.find? (fun it => it.productId == p.id) with
  | none => simp [hfind]
  | some it => simp [hfind]

/-- Claim C2 (amended): committing a non-empty cart sets each product's
stock to `prior stock − first matching line item quantity`; the result is
non-negative exactly when that quantity is at most the prior stock — the
code enforces nothing, so for an overdrawing item the committed stock is
strictly negative. -/
theorem commit_stock_formula_and_nonneg_iff (st : SalesState)
    (items : List SaleItem) (now : ℤ) (mkId : ℕ → ℤ) (pid : ℤ)
    (p : Product) (hp : findProduct st.products pid = some p)
    (hne : items ≠ []) :
    (findProduct (handleSaveTransaction st items now mkId).products
        pid).map Product.stock = some (p.stock - firstMatchQty items pid)
    ∧ (0 ≤ p.stock - firstMatchQty items pid
        ↔ firstMatchQty items pid ≤ p.stock) := by
  have hguard : items.isEmpty = false := by
    cases items with
    | nil => exact absurd rfl hne
    | cons a l => rfl
  have hpid : p.id = pid := by
    have hb := List.find?_some hp
    simpa using hb
  constructor
  · rw [handleSaveTransaction, hguard]
    show (findProduct (st.products.map (cartStockUpdate items)) pid).map
      Product.stock = _
    rw [findProduct_map_pres _ (cartStockUpdate_id items) st.products pid,
      hp]
    show some ((cartStockUpdate items p).stock) = _
    rw [cartStockUpdate_stock, hpid]
  · exact sub_nonneg

/-- Claim C2, counterexample: committing a cart with quantity 5 against
stock 3 leaves stock -2, strictly below zero. -/
theorem commit_negative_stock_cex :
    (findProduct (handleSaveTransaction ⟨[⟨1, "Cafe", 10, 3, []⟩], [], []⟩
        [⟨1, 5, 10, 50⟩] 778 (fun i => (i : ℤ))).products 1).map
        Product.stock = some (-2)
    ∧ (-2 : ℤ) < 0 := by
  exact ⟨rfl, by decide⟩

/-- Witness for the amended claim C2 at a concrete valid cart (quantity 2
against stock 3): the committed stock is `3 - 2` and the non-negativity
equivalence holds. -/
theorem commit_stock_formula_witness :
    (findProduct (handleSaveTransaction ⟨[⟨1, "Cafe", 10, 3, []⟩], [], []⟩
        [⟨1, 2, 10, 20⟩] 778 (fun i => (i : ℤ))).products 1).map
        Product.stock = some (3 - firstMatchQty [⟨1, 2, 10, 20⟩] 1)
    ∧ (0 ≤ (3 : ℤ) - firstMatchQty [⟨1, 2, 10, 20⟩] 1
        ↔ firstMatchQty [⟨1, 2, 10, 20⟩] 1 ≤ 3) := by
  exact commit_stock_formula_and_nonneg_iff
    ⟨[⟨1, "Cafe", 10, 3, []⟩], [], []⟩ [⟨1, 2, 10, 20⟩] 778
    (fun i => (i : ℤ)) 1 ⟨1, "Cafe", 10, 3, []⟩ (by decide) (by decide)

/-- Claim C10: when a cart holds several line items for the same product,
the commit appends one Sale record per line item (the records for that
product carry exactly the line items' quantities) but decrements the
product's stock only by the FIRST matching item's quantity, which is
strictly less than the total quantity recorded as sold whenever the
remaining matching items have positive total quantity. -/
theorem commit_duplicate_items_under_decrement (st : SalesState)
    (items : List SaleItem) (now : ℤ) (mkId : ℕ → ℤ) (pid : ℤ)
    (p : Product) (m1 : SaleItem) (rest : List SaleItem)
    (hp : findProduct st.products pid = some p)
    (hms : items.filter (fun it => it.productId == pid) = m1 :: rest)
    (hpos : 0 < (rest.map SaleItem.quantity).sum) :
    ((commitNewSales st.products now mkId 0 items).filter
        (fun s => s.productId == pid)).map Sale.quantity
      = (m1 :: rest).map SaleItem.quantity
    ∧ (handleSaveTransaction st items now mkId).sales
        = st.sales ++ commitNewSales st.products now mkId 0 items
    ∧ (findProduct (handleSaveTransaction st items now mkId).products
        pid).map Product.stock = some (p.stock - m1.quantity)
    ∧ m1.quantity < ((m1 :: rest).map SaleItem.quantity).sum := by
  have hne : items ≠ [] := by
    intro hc
    rw [hc] at hms
    exact List.cons_ne_nil m1 rest hms.symm
  have hguard : items.isEmpty = false := by
    cases items with
    | nil => exact absurd rfl hne
    | cons a l => rfl
  have hpid : p.id = pid := by
    have hb := List.find?_some hp
    simpa using hb
  have hfirst : firstMatchQty items pid = m1.quantity := by
    unfold firstMatchQty
    rw [find?_eq_head?_filter, hms]
    rfl
  refine ⟨?_, ?_, ?_, ?_⟩
  · rw [commitNewSales_filter_quantities, hms]
  · rw [handleSaveTransaction, hguard]
    rfl
  · rw [handleSaveTransaction, hguard]
    show (findProduct (st.products.map (cartStockUpdate items)) pid).map
      Product.stock = _
    rw [findProduct_map_pres _ (cartStockUpdate_id items) st.products pid,
      hp]
    show some ((cartStockUpdate items p).stock) = _
    rw [cartStockUpdate_stock, hpid, hfirst]
  · rw [List.map_cons, List.sum_cons]
    exact lt_add_of_pos_right m1.quantity hpos

/-- Witness for claim C10: a cart with two line items for product 1
(quantities 2 and 3) against stock 10 — both Sale records are appended
with total recorded quantity 5, yet the stock only drops by 2, to 8. -/
theorem commit_duplicate_items_witness :
    (findProduct (handleSaveTransaction ⟨[⟨1, "Cafe", 10, 10, []⟩], [], []⟩
        [⟨1, 2, 10, 20⟩, ⟨1, 3, 10, 30⟩] 779 (fun i => (i : ℤ))).products
        1).map Product.stock = some 8
    ∧ (((commitNewSales [⟨1, "Cafe", 10, 10, []⟩] 779 (fun i => (i : ℤ)) 0
          [⟨1, 2, 10, 20⟩, ⟨1, 3, 10, 30⟩]).filter
        (fun s => s.productId == 1)).map Sale.quantity).sum = 5 := by
  have h := commit_duplicate_items_under_decrement
    ⟨[⟨1, "Cafe", 10, 10, []⟩], [], []⟩ [⟨1, 2, 10, 20⟩, ⟨1, 3, 10, 30⟩]
    779 (fun i => (i : ℤ)) 1 ⟨1, "Cafe", 10, 10, []⟩ ⟨1, 2, 10, 20⟩
    [⟨1, 3, 10, 30⟩] (by decide) (by decide) (by decide)
  refine ⟨h.2.2.1.trans (by decide), ?_⟩
  rw [h.1]
  decide

/-- The stock left on a product by the batch completion's per-product
rewrite. -/
lemma aggregateStockUpdate_stock (drafts : List PendingSale) (p : Product) :
    (aggregateStockUpdate drafts p).stock
      = if 0 < aggregateQuantity drafts p.id
          then p.stock - aggregateQuantity drafts p.id else p.stock := by
  unfold aggregateStockUpdate
  by_cases h : 0 < aggregateQuantity drafts p.id
  · simp [h]
  · simp [h]

/-- Claim C3 (amended): `handleCompleteAllPendingSales` aggregates the
quantities of every product across ALL pending drafts, but performs no
stock check: with at least one pending draft it always clears the whole
pending list, appends one Sale record per draft line item in one batch,
and decrements each product's stock by its aggregated quantity (products
with non-positive aggregate are untouched) — even when the aggregate
exceeds the stock, which then goes negative. -/
theorem completeAllPendingSales_unconditional_batch (st : SalesState)
    (now : ℤ) (mkId : ℕ → ℤ) (hne : st.pendingSales ≠ []) :
    (handleCompleteAllPendingSales st now mkId).pendingSales = []
    ∧ (handleCompleteAllPendingSales st now mkId).sales
        = st.sales ++ commitNewSales st.products now mkId 0
            (allDraftItems st.pendingSales)
    ∧ (handleCompleteAllPendingSales st now mkId).sales.length
        = st.sales.length + (allDraftItems st.pendingSales).length
    ∧ (∀ pid p, findProduct st.products pid = some p →
        (findProduct (handleCompleteAllPendingSales st now mkId).products
            pid).map Product.stock
          = some (if 0 < aggregateQuantity st.pendingSales pid
              then p.stock - aggregateQuantity st.pendingSales pid
              else p.stock)) := by
  have hguard : st.pendingSales.isEmpty = false := by
    cases hI : st.pendingSales with
    | nil => exact absurd hI hne
    | cons a l => rfl
  refine ⟨?_, ?_, ?_, ?_⟩
  · rw [handleCompleteAllPendingSales, hguard]
    rfl
  · rw [handleCompleteAllPendingSales, hguard]
    rfl
  · rw [handleCompleteAllPendingSales, hguard]
    show (st.sales ++ commitNewSales st.products now mkId 0
      (allDraftItems st.pendingSales)).length = _
    simp [List.length_append, commitNewSales_length]
  · intro pid p hp
    have hpid : p.id = pid := by
      have hb := List.find?_some hp
      simpa using hb
    rw [handleCompleteAllPendingSales, hguard]
    show (findProduct (st.products.map
      (aggregateStockUpdate st.pendingSales)) pid).map Product.stock = _
    rw [findProduct_map_pres _ (aggregateStockUpdate_id st.pendingSales)
      st.products pid, hp]
    show some ((aggregateStockUpdate st.pendingSales p).stock) = _
    rw [aggregateStockUpdate_stock, hpid]

/-- Claim C3, counterexample: two drafts each requesting 3 units of a
product with stock 5 — the claim says the batch must fail with no draft
modified and no stock change, but the code commits both records, clears
the drafts, and drives the stock to -1 (not 5). -/
theorem completeAllPendingSales_no_stock_check_cex :
    (handleCompleteAllPendingSales
        ⟨[⟨1, "Cafe", 10, 5, []⟩], [],
          [⟨"d1", "A", [⟨1, 3, 10, 30⟩], 30, 0, 0⟩,
            ⟨"d2", "B", [⟨1, 3, 10, 30⟩], 30, 0, 0⟩]⟩ 780
        (fun i => (i : ℤ))).pendingSales = []
    ∧ (handleCompleteAllPendingSales
        ⟨[⟨1, "Cafe", 10, 5, []⟩], [],
          [⟨"d1", "A", [⟨1, 3, 10, 30⟩], 30, 0, 0⟩,
            ⟨"d2", "B", [⟨1, 3, 10, 30⟩], 30, 0, 0⟩]⟩ 780
        (fun i => (i : ℤ))).sales.length = 2
    ∧ (findProduct (handleCompleteAllPendingSales
        ⟨[⟨1, "Cafe", 10, 5, []⟩], [],
          [⟨"d1", "A", [⟨1, 3, 10, 30⟩], 30, 0, 0⟩,
            ⟨"d2", "B", [⟨1, 3, 10, 30⟩], 30, 0, 0⟩]⟩ 780
        (fun i => (i : ℤ))).products 1).map Product.stock = some (-1)
    ∧ ¬ ((findProduct (handleCompleteAllPendingSales
        ⟨[⟨1, "Cafe", 10, 5, []⟩], [],
          [⟨"d1", "A", [⟨1, 3, 10, 30⟩], 30, 0, 0⟩,
            ⟨"d2", "B", [⟨1, 3, 10, 30⟩], 30, 0, 0⟩]⟩ 780
        (fun i => (i : ℤ))).products 1).map Product.stock = some 5) := by
  decide

/-- Witness for the amended claim C3 at the spec's success example: drafts
requesting 2 and 3 units of a product with stock 5 — the batch clears the
drafts, appends exactly the 2 records with product id 1, and leaves stock
0. -/
theorem completeAllPendingSales_batch_witness :
    (handleCompleteAllPendingSales
        ⟨[⟨1, "Cafe", 10, 5, []⟩], [],
          [⟨"d1", "A", [⟨1, 2, 10, 20⟩], 20, 0, 0⟩,
            ⟨"d2", "B", [⟨1, 3, 10, 30⟩], 30, 0, 0⟩]⟩ 781
        (fun i => (i : ℤ))).pendingSales = []
    ∧ (handleCompleteAllPendingSales
        ⟨[⟨1, "Cafe", 10, 5, []⟩], [],
          [⟨"d1", "A", [⟨1, 2, 10, 20⟩], 20, 0, 0⟩,
            ⟨"d2", "B", [⟨1, 3, 10, 30⟩], 30, 0, 0⟩]⟩ 781
        (fun i => (i : ℤ))).sales.map Sale.productId = [1, 1]
    ∧ (findProduct (handleCompleteAllPendingSales
        ⟨[⟨1, "Cafe", 10, 5, []⟩], [],
          [⟨"d1", "A", [⟨1, 2, 10, 20⟩], 20, 0, 0⟩,
            ⟨"d2", "B", [⟨1, 3, 10, 30⟩], 30, 0, 0⟩]⟩ 781
        (fun i => (i : ℤ))).products 1).map Product.stock = some 0 := by
  have h := completeAllPendingSales_unconditional_batch
    ⟨[⟨1, "Cafe", 10, 5, []⟩], [],
      [⟨"d1", "A", [⟨1, 2, 10, 20⟩], 20, 0, 0⟩,
        ⟨"d2", "B", [⟨1, 3, 10, 30⟩], 30, 0, 0⟩]⟩ 781
    (fun i => (i : ℤ)) (by decide)
  refine ⟨h.1, ?_, ?_⟩
  · rw [h.2.1]
    decide
  · exact (h.2.2.2 1 ⟨1, "Cafe", 10, 5, []⟩ (by decide)).trans (by decide)

/-- The spec-side procedure of the refinement claim on `completeDraft`
(spec wording: build a cart from the draft's items, call `commit`
(`handleSaveTransaction`), then delete the draft): stated for comparison
with the source's `handleCompletePendingSale`. -/
def completeDraftViaCart (st : SalesState) (saleId : String) (now : ℤ)
    (mkId : ℕ → ℤ) : SalesState :=
  match st.pendingSales.find? (fun s => s.id == saleId) with
  | none => st
  | some d =>
    let st1 := handleSaveTransaction st d.items now mkId
    { st1 with
      pendingSales := st1.pendingSales.filter (fun s => !(s.id == saleId)) }

lemma filter_eq_nil_of_key_not_mem (items : List SaleItem) (k : ℤ)
    (hk : k ∉ items.map SaleItem.productId) :
    items.filter (fun it => it.productId == k) = [] := by
  rw [List.filter_eq_nil_iff]
  intro it hit
  intro hb
  exact hk (List.mem_map.mpr ⟨it, hit, (by simpa using hb)⟩)

/-- When no product id repeats among the line items, the summed decrement
of the draft path coincides with the first-match decrement of the cart
path on every product. -/
lemma draftStockDecrement_eq_cartStockUpdate_of_nodup
    (items : List SaleItem)
    (hnd : (items.map SaleItem.productId).Nodup) (p : Product) :
    draftStockDecrement items p = cartStockUpdate items p := by
  induction items with
  | nil => rfl
  | cons it its ih =>
    rw [List.map_cons, List.nodup_cons] at hnd
    obtain ⟨hnotmem, htail⟩ := hnd
    by_cases hc : it.productId = p.id
    · have hrest : its.filter (fun x => x.productId == p.id) = [] :=
        filter_eq_nil_of_key_not_mem its p.id (by rw [← hc]; exact hnotmem)
      have hfil : (it :: its).filter (fun x => x.productId == p.id)
          = [it] := by
        rw [List.filter_cons_of_pos (by simpa using hc), hrest]
      have hfind : (it :: its).find? (fun x => x.productId == p.id)
          = some it :=
        List.find?_cons_of_pos _ (by simpa using hc)
      rw [draftStockDecrement, cartStockUpdate, hfil, hfind]
      simp
    · have hfil : (it :: its).filter (fun x => x.productId == p.id)
          = its.filter (fun x => x.productId == p.id) :=
        List.filter_cons_of_neg (by simpa using hc)
      have hfind : (it :: its).find? (fun x => x.productId == p.id)
          = its.find? (fun x => x.productId == p.id) :=
        List.find?_cons_of_neg _ (by simpa using hc)
      rw [draftStockDecrement, cartStockUpdate, hfil, hfind]
      rw [draftStockDecrement, cartStockUpdate] at ih
      exact ih htail

/-- Claim C4 (amended): completing a pending draft equals building a cart
from the draft's items, committing it, and deleting the draft — PROVIDED
no product id occurs in more than one of the draft's line items.  (The
counterexample shows the two differ on a draft with duplicated product
ids: the draft path subtracts the summed quantity, the cart path only the
first item's quantity.) -/
theorem completePendingSale_eq_cartCommit_of_nodup_ids (st : SalesState)
    (saleId : String) (now : ℤ) (mkId : ℕ → ℤ)
    (hnd : ∀ d ∈ st.pendingSales, d.id = saleId →
      (d.items.map SaleItem.productId).Nodup) :
    handleCompletePendingSale st saleId now mkId
      = completeDraftViaCart st saleId now mkId := by
  cases hfind : st.pendingSales.find? (fun s => s.id == saleId) with
  | none =>
    rw [handleCompletePendingSale, completeDraftViaCart, hfind]
  | some d =>
    have hdmem : d ∈ st.pendingSales := List.mem_of_find?_eq_some hfind
    have hdid : d.id = saleId := by
      have hb := List.find?_some hfind
      simpa using hb
    have hnodup := hnd d hdmem hdid
    rw [handleCompletePendingSale, completeDraftViaCart, hfind]
    have hprod : st.products.map (draftStockDecrement d.items)
        = st.products.map (cartStockUpdate d.items) :=
      List.map_congr_left (fun p _ =>
        draftStockDecrement_eq_cartStockUpdate_of_nodup d.items hnodup p)
    by_cases hemp : d.items = []
    · simp only [handleSaveTransaction, hemp, List.isEmpty_nil, if_true]
      show SalesState.mk _ _ _ = SalesState.mk _ _ _
      rw [SalesState.mk.injEq]
      refine ⟨?_, ?_, rfl⟩
      · have hid : ∀ p : Product, draftStockDecrement [] p = p :=
          fun p => rfl
        exact (List.map_congr_left (fun p _ => hid p)).trans
          (List.map_id st.products)
      · show st.sales ++ commitNewSales st.products now mkId 0 [] = _
        simp [commitNewSales]
    · have hguard : d.items.isEmpty = false := by
        cases hI : d.items with
        | nil => exact absurd hI hemp
        | cons a l => rfl
      simp only [handleSaveTransaction, hguard, Bool.false_eq_true, if_false]
      show SalesState.mk _ _ _ = SalesState.mk _ _ _
      rw [SalesState.mk.injEq]
      exact ⟨hprod, rfl, rfl⟩

/-- Claim C4, counterexample: a draft holding two line items for the same
product (quantities 2 and 3, stock 10).  Completing the draft leaves
stock 5 (summed decrement); building a cart from the items and committing
leaves stock 8 (first-item decrement), so the two procedures differ. -/
theorem completePendingSale_cartCommit_differ_cex :
    handleCompletePendingSale
        ⟨[⟨1, "Cafe", 10, 10, []⟩], [],
          [⟨"d1", "Mesa", [⟨1, 2, 10, 20⟩, ⟨1, 3, 10, 30⟩], 50, 0, 0⟩]⟩
        "d1" 782 (fun i => (i : ℤ))
      ≠ completeDraftViaCart
        ⟨[⟨1, "Cafe", 10, 10, []⟩], [],
          [⟨"d1", "Mesa", [⟨1, 2, 10, 20⟩, ⟨1, 3, 10, 30⟩], 50, 0, 0⟩]⟩
        "d1" 782 (fun i => (i : ℤ))
    ∧ (findProduct (handleCompletePendingSale
        ⟨[⟨1, "Cafe", 10, 10, []⟩], [],
          [⟨"d1", "Mesa", [⟨1, 2, 10, 20⟩, ⟨1, 3, 10, 30⟩], 50, 0, 0⟩]⟩
        "d1" 782 (fun i => (i : ℤ))).products 1).map Product.stock
      = some 5
    ∧ (findProduct (completeDraftViaCart
        ⟨[⟨1, "Cafe", 10, 10, []⟩], [],
          [⟨"d1", "Mesa", [⟨1, 2, 10, 20⟩, ⟨1, 3, 10, 30⟩], 50, 0, 0⟩]⟩
        "d1" 782 (fun i => (i : ℤ))).products 1).map Product.stock
      = some 8 := by
  refine ⟨by decide, by decide, by decide⟩

/-- Witness for the amended claim C4 at a draft whose items reference two
distinct products: the completed-draft state and the cart-commit state
coincide. -/
theorem completePendingSale_eq_cartCommit_witness :
    handleCompletePendingSale
        ⟨[⟨1, "Cafe", 10, 10, []⟩, ⟨2, "Pan", 5, 7, []⟩], [],
          [⟨"d1", "Mesa", [⟨1, 2, 10, 20⟩, ⟨2, 3, 5, 15⟩], 35, 0, 0⟩]⟩
        "d1" 783 (fun i => (i : ℤ))
      = completeDraftViaCart
        ⟨[⟨1, "Cafe", 10, 10, []⟩, ⟨2, "Pan", 5, 7, []⟩], [],
          [⟨"d1", "Mesa", [⟨1, 2, 10, 20⟩, ⟨2, 3, 5, 15⟩], 35, 0, 0⟩]⟩
        "d1" 783 (fun i => (i : ℤ)) := by
  exact completePendingSale_eq_cartCommit_of_nodup_ids
    ⟨[⟨1, "Cafe", 10, 10, []⟩, ⟨2, "Pan", 5, 7, []⟩], [],
      [⟨"d1", "Mesa", [⟨1, 2, 10, 20⟩, ⟨2, 3, 5, 15⟩], 35, 0, 0⟩]⟩
    "d1" 783 (fun i => (i : ℤ)) (by decide)

/-- The three report windows of the Reports component. -/
inductive Period
  | daily
  | weekly
  | general
  deriving Repr, DecidableEq

/-- Milliseconds per calendar day. -/
def msPerDay : ℤ := 86400000

/-- Source: `getFilteredSales` of the Reports component.  `today` is the
start of `now`'s calendar day (`new Date(y, m, d)`, passed in here as
`startOfToday`), `weekAgo` is seven calendar days earlier
(`setDate(getDate() - 7)`, i.e. 7 × 86400000 ms in this model without
DST). The filter keeps sales with `saleDate >= today` (daily),
`saleDate >= weekAgo` (weekly), or everything (general). -/
def getFilteredSales (sales : List Sale) (period : Period)
    (startOfToday : ℤ) : List Sale :=
  let weekAgo := startOfToday - 7 * msPerDay
  sales.filter (fun sale =>
    match period with
    | .daily => decide (startOfToday ≤ sale.date)
    | .weekly => decide (weekAgo ≤ sale.date)
    | .general => true)

/-- Claim C7: `getFilteredSales` keeps exactly the sales whose instant is
at least the start of the reference calendar day (daily), at least seven
days before it (weekly), or all of them (general) — an inclusive lower
bound on the instant with no upper bound; concretely, with
`now = 2024-01-15` (start of day 1705276800000 ms), the weekly window
keeps a sale at 2024-01-08T00:00:00Z (1704672000000) and drops one at
2024-01-07T23:59:59Z (1704671999000). -/
theorem getFilteredSales_spec :
    (∀ (sales : List Sale) (period : Period) (startOfToday : ℤ) (s : Sale),
      s ∈ getFilteredSales sales period startOfToday
        ↔ s ∈ sales ∧ (match period with
            | .daily => startOfToday ≤ s.date
            | .weekly => startOfToday - 7 * msPerDay ≤ s.date
            | .general => True))
    ∧ getFilteredSales
        [⟨81, 1, "A", 1, some 10, 10, 1704672000000, none⟩,
          ⟨82, 1, "A", 1, some 10, 10, 1704671999000, none⟩]
        Period.weekly 1705276800000
      = [⟨81, 1, "A", 1, some 10, 10, 1704672000000, none⟩] := by
  constructor
  · intro sales period startOfToday s
    rw [getFilteredSales, List.mem_filter]
    cases period with
    | daily => simp
    | weekly => simp
    | general => simp
  · decide

/-- Output row of the daily branch of `getGroupedProducts`
(the `ProductGroupItem` interface of Reports.tsx). -/
structure ProductGroupItem where
  name : String
  quantity : ℤ
  unitPrice : ℚ
  total : ℚ
  titles : List String
  deriving Repr, DecidableEq

/-- `sale.productName || 'Unknown Product'` — the grouping key. -/
def productKey (s : Sale) : String :=
  if s.productName = "" then "Unknown Product" else s.productName

/-- A freshly created group (`productGroups[productKey] = {...}`): zero
accumulators and the unit price of this first-encountered sale
(`sale.unitPrice || 0`). -/
def newGroup (s : Sale) : ProductGroupItem :=
  ⟨productKey s, 0, s.unitPrice.getD 0, 0, []⟩

/-- The accumulation body of the daily grouping loop: quantity and total
are added (`+= sale.quantity || 0`, identity on present numbers), and a
truthy (non-empty) title not yet collected is pushed. -/
def accumulateSale (g : ProductGroupItem) (s : Sale) : ProductGroupItem :=
  { g with
    quantity := g.quantity + s.quantity
    total := g.total + s.total
    titles :=
      match s.title with
      | some t =>
        if t ≠ "" ∧ t ∉ g.titles then g.titles ++ [t] else g.titles
      | none => g.titles }

/-- The keyed `productGroups` object in insertion order: a sale updates
the group already carrying its key or creates a fresh group at the end. -/
def addSaleToGroups : List ProductGroupItem → Sale → List ProductGroupItem
  | [], s => [accumulateSale (newGroup s) s]
  | g :: gs, s =>
    if g.name == productKey s then accumulateSale g s :: gs
    else g :: addSaleToGroups gs s

/-- A string lowered character by character: the case-insensitive
collation key. -/
def ciKey (a : String) : List Char :=
  a.toList.map Char.toLower

/-- Case-insensitive lexicographic order on group names: model of the JS
`a.name.localeCompare(b.name)` comparator, which the spec pins down as
case-insensitive lexicographic (`localeCompare` itself is an environment
collation, not code of this repository). -/
def groupNameLe (a b : ProductGroupItem) : Prop :=
  ciKey a.name ≤ ciKey b.name

instance : DecidableRel groupNameLe := fun a b =>
  inferInstanceAs (Decidable (ciKey a.name ≤ ciKey b.name))

instance : IsTotal ProductGroupItem groupNameLe :=
  ⟨fun a b => le_total (ciKey a.name) (ciKey b.name)⟩

instance : IsTrans ProductGroupItem groupNameLe :=
  ⟨fun _ _ _ hab hbc => le_trans hab hbc⟩

/-- Source: the daily branch of `getGroupedProducts` (Reports.tsx): fold
the filtered sales into keyed groups in encounter order, then sort by
product name (stable sort with the case-insensitive comparator). -/
def groupDailySales (sales : List Sale) : List ProductGroupItem :=
  List.insertionSort groupNameLe (sales.foldl addSaleToGroups [])

/-- The sales the daily grouping books under key `k`. -/
def keySales (ss : List Sale) (k : String) : List Sale :=
  ss.filter (fun s => productKey s == k)

/-- Correctness of one group row with respect to a sales list: summed
quantity and total over the key's sales, unit price of the first
encountered sale of the key, and exactly the distinct non-empty titles of
the key's sales. -/
def GroupOk (ss : List Sale) (g : ProductGroupItem) : Prop :=
  g.quantity = ((keySales ss g.name).map Sale.quantity).sum
  ∧ g.total = ((keySales ss g.name).map Sale.total).sum
  ∧ (ss.find? (fun s => productKey s == g.name)).map
      (fun s => s.unitPrice.getD 0) = some g.unitPrice
  ∧ g.titles.Nodup
  ∧ (∀ t : String, t ∈ g.titles
      ↔ (t ≠ "" ∧ some t ∈ (keySales ss g.name).map Sale.title))

/-- Invariant tying the accumulated groups to the processed prefix of the
sales list: one group per distinct key, in a duplicate-free name list,
each group correct for the prefix. -/
def GroupsInv (ss : List Sale) (gs : List ProductGroupItem) : Prop :=
  (gs.map ProductGroupItem.name).Nodup
  ∧ (∀ k, k ∈ gs.map ProductGroupItem.name ↔ k ∈ ss.map productKey)
  ∧ (∀ g ∈ gs, GroupOk ss g)

@[simp] lemma accumulateSale_name (g : ProductGroupItem) (s : Sale) :
    (accumulateSale g s).name = g.name := rfl

@[simp] lemma accumulateSale_unitPrice (g : ProductGroupItem) (s : Sale) :
    (accumulateSale g s).unitPrice = g.unitPrice := rfl

@[simp] lemma newGroup_name (s : Sale) :
    (newGroup s).name = productKey s := rfl

lemma keySales_append_same (ss : List Sale) (s : Sale) :
    keySales (ss ++ [s]) (productKey s) = keySales ss (productKey s) ++ [s] := by
  unfold keySales
  rw [List.filter_append]
  simp

lemma keySales_append_other (ss : List Sale) (s : Sale) (k : String)
    (hk : k ≠ productKey s) :
    keySales (ss ++ [s]) k = keySales ss k := by
  unfold keySales
  rw [List.filter_append]
  have hb : (productKey s == k) = false :=
    beq_eq_false_iff_ne.mpr (fun hc => hk hc.symm)
  simp [hb]

lemma addSaleToGroups_nil (s : Sale) :
    addSaleToGroups [] s = [accumulateSale (newGroup s) s] := rfl

lemma addSaleToGroups_cons (g : ProductGroupItem) (gs : List ProductGroupItem)
    (s : Sale) :
    addSaleToGroups (g :: gs) s
      = if g.name == productKey s then accumulateSale g s :: gs
        else g :: addSaleToGroups gs s := rfl

/-- Adding a sale either leaves the name list unchanged (key present) or
appends the sale's key at the end (key fresh). -/
lemma addSale_names (s : Sale) : ∀ (gs : List ProductGroupItem),
    (addSaleToGroups gs s).map ProductGroupItem.name
      = if productKey s ∈ gs.map ProductGroupItem.name
          then gs.map ProductGroupItem.name
          else gs.map ProductGroupItem.name ++ [productKey s] := by
  intro gs
  induction gs with
  | nil => simp [addSaleToGroups_nil]
  | cons g gs ih =>
    rw [addSaleToGroups_cons]
    by_cases hc : g.name = productKey s
    · have hb : (g.name == productKey s) = true := by simpa using hc
      simp [hb, hc]
    · have hb : (g.name == productKey s) = false := by simpa using hc
      simp only [hb, Bool.false_eq_true, if_false, List.map_cons]
      rw [ih]
      by_cases hm : productKey s ∈ gs.map ProductGroupItem.name
      · rw [if_pos hm, if_pos (show productKey s
            ∈ g.name :: gs.map ProductGroupItem.name from
          List.mem_cons.mpr (Or.inr hm))]
      · rw [if_neg hm, if_neg (show productKey s
            ∉ g.name :: gs.map ProductGroupItem.name from by
          rw [List.mem_cons]
          rintro (hx | hx)
          · exact hc hx.symm
          · exact hm hx)]
        rfl

/-- Where each group of `addSaleToGroups gs s` comes from, assuming the
group names of `gs` are duplicate-free: untouched groups of other keys,
the updated group of the sale's key, or the freshly created group. -/
lemma mem_addSale (s : Sale) : ∀ (gs : List ProductGroupItem),
    (gs.map ProductGroupItem.name).Nodup → ∀ g' ∈ addSaleToGroups gs s,
      (g' ∈ gs ∧ g'.name ≠ productKey s)
      ∨ (∃ g, g ∈ gs ∧ g.name = productKey s ∧ g' = accumulateSale g s)
      ∨ (productKey s ∉ gs.map ProductGroupItem.name
          ∧ g' = accumulateSale (newGroup s) s) := by
  intro gs
  induction gs with
  | nil =>
    intro _ g' hg'
    right; right
    refine ⟨by simp, ?_⟩
    simpa [addSaleToGroups_nil] using hg'
  | cons g gs ih =>
    intro hnd g' hg'
    rw [List.map_cons, List.nodup_cons] at hnd
    obtain ⟨hnotmem, htail⟩ := hnd
    rw [addSaleToGroups_cons] at hg'
    by_cases hc : g.name = productKey s
    · rw [if_pos (by simpa using hc)] at hg'
      rcases List.mem_cons.mp hg' with hg' | hg'
      · right; left
        exact ⟨g, List.mem_cons_self g gs, hc, hg'⟩
      · left
        refine ⟨List.mem_cons_of_mem g hg', ?_⟩
        intro hx
        exact hnotmem (by
          rw [← hc] at hx
          exact hx ▸ List.mem_map_of_mem ProductGroupItem.name hg')
    · rw [if_neg (by simpa using hc)] at hg'
      rcases List.mem_cons.mp hg' with hg' | hg'
      · left
        exact ⟨hg' ▸ List.mem_cons_self g gs, by rw [hg']; exact hc⟩
      · rcases ih htail g' hg' with h | h | h
        · exact Or.inl ⟨List.mem_cons_of_mem g h.1, h.2⟩
        · obtain ⟨g0, hg0, hgn, hge⟩ := h
          exact Or.inr (Or.inl ⟨g0, List.mem_cons_of_mem g hg0, hgn, hge⟩)
        · refine Or.inr (Or.inr ⟨?_, h.2⟩)
          rw [List.map_cons, List.mem_cons]
          rintro (hx | hx)
          · exact hc hx.symm
          · exact h.1 hx

/-- A group of another key is untouched by appending a sale. -/
lemma groupOk_append_other (ss : List Sale) (s : Sale) (g : ProductGroupItem)
    (hok : GroupOk ss g) (hne : g.name ≠ productKey s) :
    GroupOk (ss ++ [s]) g := by
  obtain ⟨hq, ht, hp, hnd, htl⟩ := hok
  have hks := keySales_append_other ss s g.name hne
  refine ⟨by rw [hks]; exact hq, by rw [hks]; exact ht, ?_, hnd, ?_⟩
  · rw [List.find?_append]
    cases hfind : ss.find? (fun x => productKey x == g.name) with
    | none =>
      rw [hfind] at hp
      simp at hp
    | some s0 =>
      rw [hfind] at hp
      exact hp
  · intro t
    rw [hks]
    exact htl t

/-- The group of the sale's key accumulates the sale. -/
lemma groupOk_append_match (ss : List Sale) (s : Sale) (g : ProductGroupItem)
    (hok : GroupOk ss g) (heq : g.name = productKey s) :
    GroupOk (ss ++ [s]) (accumulateSale g s) := by
  obtain ⟨hq, ht, hp, hnd, htl⟩ := hok
  have hks : keySales (ss ++ [s]) g.name = keySales ss g.name ++ [s] := by
    rw [heq, keySales_append_same]
  unfold GroupOk
  simp only [accumulateSale_name, accumulateSale_unitPrice]
  rw [hks]
  refine ⟨?_, ?_, ?_, ?_, ?_⟩
  · show g.quantity + s.quantity = _
    rw [List.map_append, List.sum_append, ← hq]
    simp
  · show g.total + s.total = _
    rw [List.map_append, List.sum_append, ← ht]
    simp
  · rw [List.find?_append]
    cases hfind : ss.find? (fun x => productKey x == g.name) with
    | none =>
      rw [hfind] at hp
      simp at hp
    | some s0 =>
      rw [hfind] at hp
      exact hp
  · show (match s.title with
      | some t =>
        if t ≠ "" ∧ t ∉ g.titles then g.titles ++ [t] else g.titles
      | none => g.titles).Nodup
    cases s.title with
    | none => exact hnd
    | some t =>
      show (if t ≠ "" ∧ t ∉ g.titles
        then g.titles ++ [t] else g.titles).Nodup
      by_cases hcond : t ≠ "" ∧ t ∉ g.titles
      · rw [if_pos hcond]
        exact (List.perm_append_singleton t g.titles).nodup_iff.mpr
          (List.nodup_cons.mpr ⟨hcond.2, hnd⟩)
      · rw [if_neg hcond]
        exact hnd
  · intro u
    rw [List.map_append]
    show u ∈ (match s.title with
      | some t =>
        if t ≠ "" ∧ t ∉ g.titles then g.titles ++ [t] else g.titles
      | none => g.titles) ↔ _
    cases hst : s.title with
    | none =>
      rw [htl u]
      constructor
      · rintro ⟨hu, hmem⟩
        exact ⟨hu, List.mem_append.mpr (Or.inl hmem)⟩
      · rintro ⟨hu, hmem⟩
        rcases List.mem_append.mp hmem with hmem | hmem
        · exact ⟨hu, hmem⟩
        · simp only [List.map_cons, List.map_nil, List.mem_singleton] at hmem
          rw [hst] at hmem
          simp at hmem
    | some t =>
      show u ∈ (if t ≠ "" ∧ t ∉ g.titles
        then g.titles ++ [t] else g.titles) ↔ _
      by_cases hcond : t ≠ "" ∧ t ∉ g.titles
      · rw [if_pos hcond]
        constructor
        · intro hu
          rcases List.mem_append.mp hu with hu | hu
          · obtain ⟨hne2, hmem⟩ := (htl u).mp hu
            exact ⟨hne2, List.mem_append.mpr (Or.inl hmem)⟩
          · have hut : u = t := by simpa using hu
            subst hut
            exact ⟨hcond.1, List.mem_append.mpr (Or.inr (by simp [hst]))⟩
        · rintro ⟨hu, hmem⟩
          rcases List.mem_append.mp hmem with hmem | hmem
          · exact List.mem_append.mpr (Or.inl ((htl u).mpr ⟨hu, hmem⟩))
          · have hut : u = t := by simpa [hst] using hmem
            subst hut
            exact List.mem_append.mpr (Or.inr (by simp))
      · rw [if_neg hcond]
        push_neg at hcond
        constructor
        · intro hu
          obtain ⟨hne2, hmem⟩ := (htl u).mp hu
          exact ⟨hne2, List.mem_append.mpr (Or.inl hmem)⟩
        · rintro ⟨hu, hmem⟩
          rcases List.mem_append.mp hmem with hmem | hmem
          · exact (htl u).mpr ⟨hu, hmem⟩
          · have hut : u = t := by simpa [hst] using hmem
            subst hut
            exact hcond hu

/-- A fresh key creates a correct singleton-sourced group. -/
lemma groupOk_new (ss : List Sale) (s : Sale)
    (hnot : productKey s ∉ ss.map productKey) :
    GroupOk (ss ++ [s]) (accumulateSale (newGroup s) s) := by
  have hksnil : keySales ss (productKey s) = [] := by
    rw [keySales, List.filter_eq_nil_iff]
    intro x hx hb
    refine hnot ?_
    have hxk : productKey x = productKey s := by simpa using hb
    exact hxk ▸ List.mem_map_of_mem productKey hx
  have hks : keySales (ss ++ [s]) (productKey s) = [s] := by
    rw [keySales_append_same, hksnil]
    rfl
  have hfind : ss.find? (fun x => productKey x == productKey s) = none := by
    rw [find?_eq_head?_filter]
    rw [show ss.filter (fun x => productKey x == productKey s)
      = keySales ss (productKey s) from rfl, hksnil]
    rfl
  unfold GroupOk
  simp only [accumulateSale_name, accumulateSale_unitPrice, newGroup_name]
  rw [hks]
  refine ⟨?_, ?_, ?_, ?_, ?_⟩
  · show (0 : ℤ) + s.quantity = _
    simp
  · show (0 : ℚ) + s.total = _
    simp
  · rw [List.find?_append, hfind]
    show (List.find? (fun x => productKey x == productKey s) [s]).map _ = _
    rw [List.find?_cons_of_pos _ (by simp)]
    rfl
  · show (match s.title with
      | some t => if t ≠ "" ∧ t ∉ ([] : List String)
          then ([] : List String) ++ [t] else []
      | none => ([] : List String)).Nodup
    cases s.title with
    | none => exact List.nodup_nil
    | some t =>
      show (if t ≠ "" ∧ t ∉ ([] : List String)
          then ([] : List String) ++ [t] else []).Nodup
      by_cases hcond : t ≠ "" ∧ t ∉ ([] : List String)
      · rw [if_pos hcond]
        simp
      · rw [if_neg hcond]
        exact List.nodup_nil
  · intro u
    show u ∈ (match s.title with
      | some t => if t ≠ "" ∧ t ∉ ([] : List String)
          then ([] : List String) ++ [t] else []
      | none => ([] : List String)) ↔ _
    cases hst : s.title with
    | none =>
      simp [hst]
    | some t =>
      show u ∈ (if t ≠ "" ∧ t ∉ ([] : List String)
          then ([] : List String) ++ [t] else []) ↔ _
      by_cases ht : t = ""
      · rw [if_neg (by simp [ht])]
        subst ht
        constructor
        · intro hu
          simp at hu
        · rintro ⟨hu, hmem⟩
          have hut : u = "" := by simpa [hst] using hmem
          exact absurd hut hu
      · rw [if_pos ⟨ht, by simp⟩]
        constructor
        · intro hu
          have hut : u = t := by simpa using hu
          subst hut
          exact ⟨ht, by simp [hst]⟩
        · rintro ⟨hu, hmem⟩
          have hut : u = t := by simpa [hst] using hmem
          subst hut
          simp

/-- One grouping step preserves the invariant. -/
lemma groupsInv_step (ss : List Sale) (gs : List ProductGroupItem)
    (s : Sale) (hInv : GroupsInv ss gs) :
    GroupsInv (ss ++ [s]) (addSaleToGroups gs s) := by
  obtain ⟨hnd, hkeys, hok⟩ := hInv
  refine ⟨?_, ?_, ?_⟩
  · rw [addSale_names]
    by_cases hm : productKey s ∈ gs.map ProductGroupItem.name
    · rw [if_pos hm]
      exact hnd
    · rw [if_neg hm]
      exact (List.perm_append_singleton _ _).nodup_iff.mpr
        (List.nodup_cons.mpr ⟨hm, hnd⟩)
  · intro k
    rw [addSale_names]
    have hkeyapp : (ss ++ [s]).map productKey
        = ss.map productKey ++ [productKey s] := by simp
    rw [hkeyapp]
    by_cases hm : productKey s ∈ gs.map ProductGroupItem.name
    · rw [if_pos hm]
      constructor
      · intro h
        exact List.mem_append.mpr (Or.inl ((hkeys k).mp h))
      · intro h
        rcases List.mem_append.mp h with h | h
        · exact (hkeys k).mpr h
        · have hk : k = productKey s := by simpa using h
          subst hk
          exact hm
    · rw [if_neg hm]
      constructor
      · intro h
        rcases List.mem_append.mp h with h | h
        · exact List.mem_append.mpr (Or.inl ((hkeys k).mp h))
        · exact List.mem_append.mpr (Or.inr h)
      · intro h
        rcases List.mem_append.mp h with h | h
        · exact List.mem_append.mpr (Or.inl ((hkeys k).mpr h))
        · exact List.mem_append.mpr (Or.inr h)
  · intro g' hg'
    rcases mem_addSale s gs hnd g' hg' with h | h | h
    · exact groupOk_append_other ss s g' (hok g' h.1) h.2
    · obtain ⟨g0, hg0, hgn, hge⟩ := h
      rw [hge]
      exact groupOk_append_match ss s g0 (hok g0 hg0) hgn
    · obtain ⟨hnm, hge⟩ := h
      rw [hge]
      exact groupOk_new ss s (fun hc => hnm ((hkeys _).mpr hc))

lemma groupsInv_nil : GroupsInv [] [] := by
  refine ⟨List.nodup_nil, ?_, ?_⟩
  · intro k
    simp
  · intro g hg
    simp at hg

/-- The fold maintains the invariant over the processed prefix. -/
lemma groupsInv_foldl : ∀ (ss pre : List Sale) (gs : List ProductGroupItem),
    GroupsInv pre gs → GroupsInv (pre ++ ss) (ss.foldl addSaleToGroups gs) := by
  intro ss
  induction ss with
  | nil =>
    intro pre gs h
    simpa using h
  | cons s ss ih =>
    intro pre gs h
    have h2 := ih (pre ++ [s]) (addSaleToGroups gs s)
      (groupsInv_step pre gs s h)
    have heq : (pre ++ [s]) ++ ss = pre ++ s :: ss := by simp
    rw [heq] at h2
    exact h2

/-- Claim C8: the daily grouping yields one row per distinct product key
(duplicate-free names covering exactly the keys occurring in the sales),
each row carrying the summed quantity and total of its key's sales, the
unit price of the first sale encountered for that key, and exactly the
distinct non-empty titles seen for that key; the output is sorted by the
case-insensitive name order. -/
theorem groupDaily_spec (sales : List Sale) :
    ((groupDailySales sales).map ProductGroupItem.name).Nodup
    ∧ (∀ k, k ∈ (groupDailySales sales).map ProductGroupItem.name
        ↔ k ∈ sales.map productKey)
    ∧ (∀ g ∈ groupDailySales sales, GroupOk sales g)
    ∧ List.Sorted groupNameLe (groupDailySales sales) := by
  have hInv : GroupsInv sales (sales.foldl addSaleToGroups []) := by
    have h := groupsInv_foldl sales [] [] groupsInv_nil
    simpa using h
  obtain ⟨hnd, hkeys, hok⟩ := hInv
  have hperm : List.Perm (groupDailySales sales)
      (sales.foldl addSaleToGroups []) :=
    List.perm_insertionSort groupNameLe (sales.foldl addSaleToGroups [])
  refine ⟨?_, ?_, ?_, ?_⟩
  · exact (hperm.map ProductGroupItem.name).nodup_iff.mpr hnd
  · intro k
    rw [List.Perm.mem_iff (hperm.map ProductGroupItem.name)]
    exact hkeys k
  · intro g hg
    exact hok g (hperm.mem_iff.mp hg)
  · exact List.sorted_insertionSort groupNameLe _

/-- Witness for claim C8 at the spec's {A, A, B} example (totals 10, 20,
5): the A row accumulates quantity 3 and total 30 with the first-sale
unit price 10 and the single non-empty title, and the output is sorted
with A before B. -/
theorem groupDaily_spec_witness :
    GroupOk
        [⟨1, 1, "A", 1, some 10, 10, 0, some "m1"⟩,
          ⟨2, 1, "A", 2, some 10, 20, 0, none⟩,
          ⟨3, 2, "B", 1, some 5, 5, 0, some "m2"⟩]
        ⟨"A", 3, 10, 30, ["m1"]⟩
    ∧ List.Sorted groupNameLe (groupDailySales
        [⟨1, 1, "A", 1, some 10, 10, 0, some "m1"⟩,
          ⟨2, 1, "A", 2, some 10, 20, 0, none⟩,
          ⟨3, 2, "B", 1, some 5, 5, 0, some "m2"⟩]) := by
  have hcomp : groupDailySales
      [⟨1, 1, "A", 1, some 10, 10, 0, some "m1"⟩,
        ⟨2, 1, "A", 2, some 10, 20, 0, none⟩,
        ⟨3, 2, "B", 1, some 5, 5, 0, some "m2"⟩]
      = [⟨"A", 3, 10, 30, ["m1"]⟩, ⟨"B", 1, 5, 5, ["m2"]⟩] := by
    norm_num [groupDailySales, addSaleToGroups, accumulateSale, newGroup,
      productKey, groupNameLe, ciKey, List.insertionSort,
      List.orderedInsert]
    decide
  refine ⟨(groupDaily_spec _).2.2.1 ⟨"A", 3, 10, 30, ["m1"]⟩ ?_,
    (groupDaily_spec _).2.2.2⟩
  rw [hcomp]
  exact List.mem_cons_self _ _

end Finzo
